import Mathlib

/-!
Verification of the iceberg versioned key-value store.

This file shallowly embeds the core data model and operations of the store
(`src/tree.rs`, `src/bloom.rs`, `src/wal.rs`, `src/commit.rs`,
`src/compaction.rs`, `src/db.rs`) and proves or refutes the frozen claims
about them.

Modelling conventions:
* Byte sequences (`Vec<u8>`) are `List Nat`.
* `BTreeMap<String, Vec<u8>>` is a key-ascending association list
  `List (String × List Nat)`; `insert` / `remove` / `get` / iteration are
  translated operation by operation.
* Digests: the spec (§1) treats the hash family as pluggable ("the core only
  requires a collision-resistant digest"), and no claim below depends on
  collision resistance, so SHA-256 is modelled by a concrete deterministic
  stand-in `computeHash` over the serialized bytes.
* On-disk directories keyed by digest or id (`trees/<digest>`,
  `commits/<id>`, the refs map) are unsorted association lists with
  overwrite-on-save (`alistUpsert`), matching `fs::write` semantics.
* Wall-clock timestamps (`Utc::now()`) are environment inputs and are passed
  as explicit parameters.
* `f64` arithmetic inside `BloomFilter::new` is not statable; the two values
  it feeds into the integer clamps are taken as parameters, so theorems about
  `new` quantify over every possible outcome of the float computation.
-/

namespace Iceberg

abbrev Bytes := List Nat

abbrev Hash := Nat

/-- Rust `String` keys and branch names, modelled as their character lists
(`String.data`); the lexicographic order on `List Char` matches Rust's string
ordering and, unlike `String.lt`, is kernel-computable. -/
abbrev Str := List Char

/-- First-match lookup in an association list (`BTreeMap::get` /
`HashMap::get` / reading the file named by the key). -/
def alistLookup {κ α : Type} [DecidableEq κ] (k : κ) : List (κ × α) → Option α
  | [] => none
  | (k0, v) :: rest => if k = k0 then some v else alistLookup k rest

/-- Overwrite-or-add in an unsorted association list; models `fs::write` to a
file named by the key, and `HashMap::insert` (the old binding for the key is
replaced, every other binding is kept). -/
def alistUpsert {κ α : Type} [DecidableEq κ] (k : κ) (v : α) (l : List (κ × α)) :
    List (κ × α) :=
  (k, v) :: l.filter (fun p => p.1 ≠ k)

theorem alistLookup_upsert_self {κ α : Type} [DecidableEq κ] (k : κ) (v : α)
    (l : List (κ × α)) : alistLookup k (alistUpsert k v l) = some v := by
  simp [alistUpsert, alistLookup]

theorem alistLookup_filter_ne {κ α : Type} [DecidableEq κ] {k k' : κ}
    (l : List (κ × α)) (hne : k' ≠ k) :
    alistLookup k' (l.filter (fun p => p.1 ≠ k)) = alistLookup k' l := by
  induction l with
  | nil => rfl
  | cons p rest ih =>
    obtain ⟨pk, pv⟩ := p
    by_cases hk : pk = k
    · have hk' : ¬k' = pk := fun h => hne (h.trans hk)
      rw [show ((pk, pv) :: rest).filter (fun p => decide (p.1 ≠ k))
          = rest.filter (fun p => decide (p.1 ≠ k)) by
        simp [List.filter_cons, hk]]
      rw [ih]
      simp [alistLookup, hk']
    · rw [show ((pk, pv) :: rest).filter (fun p => decide (p.1 ≠ k))
          = (pk, pv) :: rest.filter (fun p => decide (p.1 ≠ k)) by
        simp [List.filter_cons, hk]]
      by_cases hk' : k' = pk
      · simp [alistLookup, hk']
      · simp only [alistLookup, if_neg hk']
        exact ih

theorem alistLookup_upsert_ne {κ α : Type} [DecidableEq κ] {k k' : κ} (v : α)
    (l : List (κ × α)) (hne : k' ≠ k) :
    alistLookup k' (alistUpsert k v l) = alistLookup k' l := by
  show (if k' = k then some v else alistLookup k' (l.filter (fun p => p.1 ≠ k)))
      = alistLookup k' l
  rw [if_neg hne, alistLookup_filter_ne l hne]

/-! ## Digests (`src/block.rs`)

`compute_hash` is SHA-256 over bytes; the spec (§1) makes the hash family
pluggable and no claim depends on collision resistance, so it is modelled by
a concrete deterministic 64-bit polynomial stand-in. -/

/-- Stand-in for `compute_hash` (`src/block.rs`): a deterministic digest of a
byte sequence, reduced mod 2^64. -/
def computeHash (bytes : Bytes) : Hash :=
  bytes.foldl (fun h b => (h * 131 + b + 1) % 18446744073709551616) 5381

/-- Byte encoding of a string (used to serialize keys and payloads). -/
def encodeStr (s : Str) : Bytes :=
  s.map Char.toNat

/-! ## SnapshotTree (`src/tree.rs`)

`Tree.entries` models `BTreeMap<String, Vec<u8>>` as a key-ascending
association list. -/

abbrev Entries := List (Str × Bytes)

/-- `BTreeMap` iteration yields strictly ascending keys. -/
def entriesSorted (l : Entries) : Prop :=
  l.Pairwise (fun a b => a.1 < b.1)

instance (l : Entries) : Decidable (entriesSorted l) := by
  unfold entriesSorted
  infer_instance

/-- `BTreeMap::insert`: insert or replace, keeping keys ascending. -/
def insertEntry (key : Str) (value : Bytes) : Entries → Entries
  | [] => [(key, value)]
  | (k, v) :: rest =>
    if key < k then (key, value) :: (k, v) :: rest
    else if key = k then (key, value) :: rest
    else (k, v) :: insertEntry key value rest

/-- `BTreeMap::remove`: drop the entry with the given key, if present. -/
def deleteEntry (key : Str) : Entries → Entries
  | [] => []
  | (k, v) :: rest =>
    if key = k then rest else (k, v) :: deleteEntry key rest

/-- Canonical serialization of the entries: `serde_json::to_vec` of the map,
which lists the entries in ascending key order. Modelled as a concrete
injective-enough flattening; only determinism matters for the claims. -/
def serializeEntries (l : Entries) : Bytes :=
  l.foldr (fun p acc => encodeStr p.1 ++ [256] ++ p.2 ++ [257] ++ acc) []

/-- `Tree::compute_root`: hash of the canonical serialization. -/
def computeRoot (l : Entries) : Hash :=
  computeHash (serializeEntries l)

/-- `Tree` (`src/tree.rs`): root digest plus the sorted entries. -/
structure Tree where
  root_hash : Hash
  entries : Entries
deriving DecidableEq, Repr

/-- `Tree::empty`. -/
def Tree.empty : Tree :=
  let entries : Entries := []
  { root_hash := computeRoot entries, entries := entries }

/-- `Tree::insert`: copy-on-write insert, recomputing the root. -/
def Tree.insertKV (t : Tree) (key : Str) (value : Bytes) : Tree :=
  let entries := insertEntry key value t.entries
  { root_hash := computeRoot entries, entries := entries }

/-- `Tree::delete`: copy-on-write delete, recomputing the root. -/
def Tree.deleteKey (t : Tree) (key : Str) : Tree :=
  let entries := deleteEntry key t.entries
  { root_hash := computeRoot entries, entries := entries }

/-- `Tree::get`. -/
def Tree.get (t : Tree) (key : Str) : Option Bytes :=
  alistLookup key t.entries

/-- `Tree::contains_key`. -/
def Tree.containsKey (t : Tree) (key : Str) : Bool :=
  (alistLookup key t.entries).isSome

/-- `Tree::range` over `BTreeMap::range (Included start, Excluded stop)`.
On a non-empty map, `BTreeMap::range` panics when the range start is greater
than its end (std `search_tree_for_bifurcation`); the panic is modelled as
`none`. An empty map has no root node and returns an empty iterator without
reaching the bounds check. -/
def Tree.range (t : Tree) (start stop : Str) : Option Entries :=
  if t.entries.isEmpty then some []
  else if stop < start then none
  else some (t.entries.filter (fun p => start ≤ p.1 ∧ p.1 < stop))

/-- `TreeDiff` (`src/tree.rs`). -/
structure TreeDiff where
  added : List Str
  removed : List Str
  modified : List Str
deriving DecidableEq, Repr

/-- `Tree::diff`: added = keys of `other` absent from `self`; modified = keys
of `other` present in `self` with different bytes; removed = keys of `self`
absent from `other`; each in the iteration (ascending key) order. -/
def Tree.diff (self other : Tree) : TreeDiff :=
  { added := (other.entries.filter
      (fun p => (alistLookup p.1 self.entries).isNone)).map Prod.fst
    removed := (self.entries.filter
      (fun p => (alistLookup p.1 other.entries).isNone)).map Prod.fst
    modified := (other.entries.filter
      (fun p => match alistLookup p.1 self.entries with
        | some oldV => oldV ≠ p.2
        | none => false)).map Prod.fst }

/-! ### Entry-list lemmas -/

theorem alistLookup_eq_none_of_lt {k : Str} :
    ∀ l : Entries, (∀ p ∈ l, k < p.1) → alistLookup k l = none := by
  intro l
  induction l with
  | nil => intro _; rfl
  | cons p rest ih =>
    intro h
    have hk : ¬k = p.1 := ne_of_lt (h p (List.mem_cons_self p rest))
    obtain ⟨pk, pv⟩ := p
    simp only [alistLookup, if_neg hk]
    exact ih fun q hq => h q (List.mem_cons_of_mem _ hq)

theorem mem_insertEntry {k : Str} {v : Bytes} :
    ∀ l : Entries, ∀ p ∈ insertEntry k v l, p.1 = k ∨ p ∈ l := by
  intro l
  induction l with
  | nil =>
    intro p hp
    simp only [insertEntry, List.mem_singleton] at hp
    exact Or.inl (by rw [hp])
  | cons q rest ih =>
    intro p hp
    obtain ⟨qk, qv⟩ := q
    simp only [insertEntry] at hp
    by_cases h1 : k < qk
    · simp only [if_pos h1, List.mem_cons] at hp
      rcases hp with h | h | h
      · exact Or.inl (by rw [h])
      · exact Or.inr (by rw [h]; exact List.mem_cons_self _ _)
      · exact Or.inr (List.mem_cons_of_mem _ h)
    · by_cases h2 : k = qk
      · simp only [if_neg h1, if_pos h2, List.mem_cons] at hp
        rcases hp with h | h
        · exact Or.inl (by rw [h])
        · exact Or.inr (List.mem_cons_of_mem _ h)
      · simp only [if_neg h1, if_neg h2, List.mem_cons] at hp
        rcases hp with h | h
        · exact Or.inr (by rw [h]; exact List.mem_cons_self _ _)
        · rcases ih p h with h' | h'
          · exact Or.inl h'
          · exact Or.inr (List.mem_cons_of_mem _ h')

theorem mem_deleteEntry {k : Str} :
    ∀ l : Entries, ∀ p ∈ deleteEntry k l, p ∈ l := by
  intro l
  induction l with
  | nil => intro p hp; exact absurd hp (List.not_mem_nil p)
  | cons q rest ih =>
    intro p hp
    obtain ⟨qk, qv⟩ := q
    simp only [deleteEntry] at hp
    by_cases h : k = qk
    · rw [if_pos h] at hp
      exact List.mem_cons_of_mem _ hp
    · rw [if_neg h, List.mem_cons] at hp
      rcases hp with h' | h'
      · exact h' ▸ List.mem_cons_self _ _
      · exact List.mem_cons_of_mem _ (ih p h')

theorem entriesSorted_insertEntry {k : Str} {v : Bytes} :
    ∀ l : Entries, entriesSorted l → entriesSorted (insertEntry k v l) := by
  intro l
  induction l with
  | nil => intro _; simp [insertEntry, entriesSorted]
  | cons q rest ih =>
    intro hs
    obtain ⟨qk, qv⟩ := q
    rw [entriesSorted, List.pairwise_cons] at hs
    obtain ⟨hq, hrest⟩ := hs
    simp only [insertEntry]
    by_cases h1 : k < qk
    · rw [if_pos h1, entriesSorted, List.pairwise_cons]
      refine ⟨?_, List.pairwise_cons.mpr ⟨hq, hrest⟩⟩
      intro p hp
      rcases List.mem_cons.mp hp with h | h
      · rw [h]; exact h1
      · exact lt_trans h1 (hq p h)
    · by_cases h2 : k = qk
      · rw [if_neg h1, if_pos h2, entriesSorted, List.pairwise_cons]
        exact ⟨fun p hp => h2 ▸ hq p hp, hrest⟩
      · have hqk : qk < k := by
          rcases lt_trichotomy k qk with h | h | h
          · exact absurd h h1
          · exact absurd h h2
          · exact h
        rw [if_neg h1, if_neg h2, entriesSorted, List.pairwise_cons]
        refine ⟨?_, ih hrest⟩
        intro p hp
        rcases mem_insertEntry rest p hp with h | h
        · rw [h]; exact hqk
        · exact hq p h

theorem entriesSorted_deleteEntry {k : Str} :
    ∀ l : Entries, entriesSorted l → entriesSorted (deleteEntry k l) := by
  intro l
  induction l with
  | nil => intro _; exact List.Pairwise.nil
  | cons q rest ih =>
    intro hs
    obtain ⟨qk, qv⟩ := q
    rw [entriesSorted, List.pairwise_cons] at hs
    obtain ⟨hq, hrest⟩ := hs
    simp only [deleteEntry]
    by_cases h : k = qk
    · rw [if_pos h]; exact hrest
    · rw [if_neg h, entriesSorted, List.pairwise_cons]
      exact ⟨fun p hp => hq p (mem_deleteEntry rest p hp), ih hrest⟩

theorem alistLookup_insertEntry_self (k : Str) (v : Bytes) :
    ∀ l : Entries, alistLookup k (insertEntry k v l) = some v := by
  intro l
  induction l with
  | nil => simp [insertEntry, alistLookup]
  | cons q rest ih =>
    obtain ⟨qk, qv⟩ := q
    simp only [insertEntry]
    by_cases h1 : k < qk
    · rw [if_pos h1]
      simp [alistLookup]
    · by_cases h2 : k = qk
      · rw [if_neg h1, if_pos h2]
        simp [alistLookup]
      · rw [if_neg h1, if_neg h2]
        simp only [alistLookup, if_neg h2]
        exact ih

theorem alistLookup_insertEntry_ne {k k' : Str} (v : Bytes) (hne : k' ≠ k) :
    ∀ l : Entries, alistLookup k' (insertEntry k v l) = alistLookup k' l := by
  intro l
  induction l with
  | nil => simp [insertEntry, alistLookup, hne]
  | cons q rest ih =>
    obtain ⟨qk, qv⟩ := q
    simp only [insertEntry]
    by_cases h1 : k < qk
    · rw [if_pos h1]
      simp [alistLookup, hne]
    · by_cases h2 : k = qk
      · subst h2
        rw [if_neg h1, if_pos rfl]
        simp [alistLookup, hne]
      · rw [if_neg h1, if_neg h2]
        simp only [alistLookup]
        by_cases h3 : k' = qk
        · simp [if_pos h3]
        · simp only [if_neg h3]
          exact ih

theorem alistLookup_deleteEntry_self (k : Str) :
    ∀ l : Entries, entriesSorted l → alistLookup k (deleteEntry k l) = none := by
  intro l
  induction l with
  | nil => intro _; rfl
  | cons q rest ih =>
    intro hs
    obtain ⟨qk, qv⟩ := q
    rw [entriesSorted, List.pairwise_cons] at hs
    obtain ⟨hq, hrest⟩ := hs
    simp only [deleteEntry]
    by_cases h : k = qk
    · rw [if_pos h]
      exact alistLookup_eq_none_of_lt rest fun p hp => h ▸ hq p hp
    · simp only [if_neg h, alistLookup, if_neg h]
      exact ih hrest

theorem alistLookup_deleteEntry_ne {k k' : Str} (hne : k' ≠ k) :
    ∀ l : Entries, alistLookup k' (deleteEntry k l) = alistLookup k' l := by
  intro l
  induction l with
  | nil => rfl
  | cons q rest ih =>
    obtain ⟨qk, qv⟩ := q
    simp only [deleteEntry]
    by_cases h : k = qk
    · subst h
      simp [alistLookup, hne]
    · simp only [if_neg h, alistLookup]
      by_cases h3 : k' = qk
      · simp [if_pos h3]
      · simp only [if_neg h3]
        exact ih

/-- Two key-ascending association lists with the same lookup function are
equal: the canonical (sorted) representation is determined by the mapping. -/
theorem sorted_lookup_ext :
    ∀ l1 l2 : Entries, entriesSorted l1 → entriesSorted l2 →
      (∀ k, alistLookup k l1 = alistLookup k l2) → l1 = l2 := by
  intro l1
  induction l1 with
  | nil =>
    intro l2 _ _ h
    cases l2 with
    | nil => rfl
    | cons q rest =>
      exfalso
      have := h q.1
      obtain ⟨qk, qv⟩ := q
      simp [alistLookup] at this
  | cons p rest1 ih =>
    intro l2 hs1 hs2 h
    cases l2 with
    | nil =>
      exfalso
      have := h p.1
      obtain ⟨pk, pv⟩ := p
      simp [alistLookup] at this
    | cons q rest2 =>
      obtain ⟨pk, pv⟩ := p
      obtain ⟨qk, qv⟩ := q
      rw [entriesSorted, List.pairwise_cons] at hs1 hs2
      obtain ⟨hp1, hrest1⟩ := hs1
      obtain ⟨hq2, hrest2⟩ := hs2
      have hkeys : pk = qk := by
        rcases lt_trichotomy pk qk with hlt | heq | hgt
        · exfalso
          have hnone : alistLookup pk ((qk, qv) :: rest2) = none := by
            simp only [alistLookup, if_neg (ne_of_lt hlt)]
            exact alistLookup_eq_none_of_lt rest2 fun r hr => lt_trans hlt (hq2 r hr)
          have hthis := h pk
          rw [hnone] at hthis
          simp [alistLookup] at hthis
        · exact heq
        · exfalso
          have hnone : alistLookup qk ((pk, pv) :: rest1) = none := by
            simp only [alistLookup, if_neg (ne_of_lt hgt)]
            exact alistLookup_eq_none_of_lt rest1 fun r hr => lt_trans hgt (hp1 r hr)
          have hthis := h qk
          rw [hnone] at hthis
          simp [alistLookup] at hthis
      subst hkeys
      have hvals : pv = qv := by
        have := h pk
        simpa [alistLookup] using this
      subst hvals
      have htails : ∀ k, alistLookup k rest1 = alistLookup k rest2 := by
        intro k
        by_cases hk : k = pk
        · subst hk
          rw [alistLookup_eq_none_of_lt rest1 fun r hr => hp1 r hr,
            alistLookup_eq_none_of_lt rest2 fun r hr => hq2 r hr]
        · have := h k
          simpa [alistLookup, if_neg hk] using this
      rw [ih rest2 hrest1 hrest2 htails]

/-! ### Tree well-formedness and operation sequences -/

/-- Invariant maintained by every `Tree` constructor: sorted entries, and the
root digest is the hash of the canonical serialization. -/
def Tree.WF (t : Tree) : Prop :=
  entriesSorted t.entries ∧ t.root_hash = computeRoot t.entries

theorem Tree.wf_empty : Tree.empty.WF :=
  ⟨List.Pairwise.nil, rfl⟩

theorem Tree.wf_insertKV {t : Tree} (h : t.WF) (k : Str) (v : Bytes) :
    (t.insertKV k v).WF :=
  ⟨entriesSorted_insertEntry t.entries h.1, rfl⟩

theorem Tree.wf_deleteKey {t : Tree} (h : t.WF) (k : Str) :
    (t.deleteKey k).WF :=
  ⟨entriesSorted_deleteEntry t.entries h.1, rfl⟩

/-- A single mutation of a `Tree` (the only two mutators in `src/tree.rs`). -/
inductive TreeOp where
  | ins (key : Str) (value : Bytes)
  | del (key : Str)
deriving DecidableEq, Repr

/-- Apply one mutation. -/
def Tree.applyOp (t : Tree) : TreeOp → Tree
  | .ins k v => t.insertKV k v
  | .del k => t.deleteKey k

/-- Apply a sequence of mutations starting from the empty tree. -/
def Tree.applyOps (ops : List TreeOp) : Tree :=
  ops.foldl Tree.applyOp Tree.empty

theorem Tree.wf_applyOp {t : Tree} (h : t.WF) (op : TreeOp) :
    (t.applyOp op).WF := by
  cases op with
  | ins k v => exact Tree.wf_insertKV h k v
  | del k => exact Tree.wf_deleteKey h k

theorem Tree.wf_foldl_applyOp {t : Tree} (h : t.WF) :
    ∀ ops : List TreeOp, (ops.foldl Tree.applyOp t).WF := by
  intro ops
  induction ops generalizing t with
  | nil => exact h
  | cons op rest ih => exact ih (Tree.wf_applyOp h op)

theorem Tree.wf_applyOps (ops : List TreeOp) : (Tree.applyOps ops).WF :=
  Tree.wf_foldl_applyOp Tree.wf_empty ops

/-- C3: for any two sequences of `insert`/`delete` operations starting from
the empty tree that yield the same final key-to-value mapping, the resulting
trees have identical `root_digest`: the root digest is the hash of the
canonical key-ascending serialization, determined by the mapping alone and
independent of construction order. -/
theorem tree_root_digest_order_independent (ops1 ops2 : List TreeOp)
    (h : ∀ k, (Tree.applyOps ops1).get k = (Tree.applyOps ops2).get k) :
    (Tree.applyOps ops1).root_hash = (Tree.applyOps ops2).root_hash := by
  have w1 := Tree.wf_applyOps ops1
  have w2 := Tree.wf_applyOps ops2
  have hent : (Tree.applyOps ops1).entries = (Tree.applyOps ops2).entries :=
    sorted_lookup_ext _ _ w1.1 w2.1 h
  rw [w1.2, w2.2, hent]

/-- Witness for C3 at two concrete, differently ordered operation sequences
(the second also overwrites a key) yielding the same mapping. -/
theorem tree_root_digest_order_independent_witness :
    (∀ k, (Tree.applyOps [.ins "b".data [2], .ins "a".data [1]]).get k
        = (Tree.applyOps [.ins "a".data [9], .ins "b".data [2],
            .ins "a".data [1]]).get k)
    ∧ (Tree.applyOps [.ins "b".data [2], .ins "a".data [1]]).root_hash
        = (Tree.applyOps [.ins "a".data [9], .ins "b".data [2],
            .ins "a".data [1]]).root_hash :=
  ⟨fun _ => rfl, tree_root_digest_order_independent _ _ (fun _ => rfl)⟩

/-- C5 counterexample: on a non-empty tree, `range` with start > end hits the
`BTreeMap::range` panic ("range start is greater than range end") instead of
returning an empty list. -/
theorem tree_range_inverted_bounds_panics :
    (Tree.empty.insertKV "a".data [1]).range "b".data "a".data = none := by
  decide

/-- C5 amended: if `start ≤ end` (in particular `start = end`), `range`
returns exactly the entries with `start ≤ k < end`, in ascending key order;
but when `start > end` and the tree is non-empty, the underlying
`BTreeMap::range` call panics rather than returning an empty list. -/
theorem tree_range_spec (t : Tree) (start stop : Str)
    (hs : entriesSorted t.entries) :
    (start ≤ stop →
      t.range start stop
          = some (t.entries.filter (fun p => start ≤ p.1 ∧ p.1 < stop))
        ∧ entriesSorted (t.entries.filter (fun p => start ≤ p.1 ∧ p.1 < stop)))
    ∧ (stop < start → t.entries ≠ [] → t.range start stop = none) := by
  constructor
  · intro hle
    constructor
    · unfold Tree.range
      by_cases hemp : t.entries.isEmpty
      · rw [if_pos hemp]
        rw [List.isEmpty_iff] at hemp
        rw [hemp]
        rfl
      · rw [if_neg hemp, if_neg (not_lt.mpr hle)]
    · exact List.Pairwise.filter _ hs
  · intro hgt hne
    unfold Tree.range
    rw [if_neg (by simpa [List.isEmpty_iff] using hne), if_pos hgt]

/-- Witness for C5 (amended) at a concrete three-entry tree with bounds
`"a" ≤ "c"`. -/
theorem tree_range_spec_witness :
    entriesSorted [("a".data, [1]), ("b".data, [2]), ("c".data, [3])]
    ∧ (("a".data ≤ "c".data →
        (Tree.mk 0 [("a".data, [1]), ("b".data, [2]), ("c".data, [3])]).range
            "a".data "c".data
            = some ([("a".data, [1]), ("b".data, [2]), ("c".data, [3])].filter
                (fun p => "a".data ≤ p.1 ∧ p.1 < "c".data))
          ∧ entriesSorted
              ([("a".data, [1]), ("b".data, [2]), ("c".data, [3])].filter
                (fun p => "a".data ≤ p.1 ∧ p.1 < "c".data)))
      ∧ ("c".data < "a".data →
          ([("a".data, [1]), ("b".data, [2]), ("c".data, [3])] : Entries) ≠ [] →
          (Tree.mk 0 [("a".data, [1]), ("b".data, [2]),
            ("c".data, [3])]).range "a".data "c".data = none)) :=
  ⟨by decide,
    tree_range_spec
      (Tree.mk 0 [("a".data, [1]), ("b".data, [2]), ("c".data, [3])])
      "a".data "c".data (by decide)⟩

/-! ## BloomFilter (`src/bloom.rs`) -/

/-- Stand-in for the SHA-256-derived 64-bit value in `BloomFilter::hash`
(`u64::from_le_bytes(sha256(seed_le_bytes ∥ key)[..8])`): a deterministic
function of seed and key; no claim depends on its distribution. -/
def bloomHashRaw (key : Bytes) (seed : Nat) : Nat :=
  computeHash (seed :: key)

/-- `BloomFilter` (`src/bloom.rs`): byte-packed bit vector plus parameters. -/
structure BloomFilter where
  bits : List Nat
  num_bits : Nat
  num_hashes : Nat
  count : Nat
deriving DecidableEq, Repr

/-- `BloomFilter::new`. The `f64` arithmetic producing the raw optimal bit
and hash counts is not statable; `rawBits` and `rawHashes` stand for its two
results after the saturating `as usize` / `as u32` casts, so theorems about
`new` quantify over every possible outcome of the float computation. The
integer clamps (`.max(64)`, `.clamp(1, 16)`, `.div_ceil(8)`) are the
source's. -/
def BloomFilter.new (rawBits rawHashes : Nat) : BloomFilter :=
  let num_bits := max rawBits 64
  let num_hashes := min (max rawHashes 1) 16
  let num_bytes := (num_bits + 7) / 8
  { bits := List.replicate num_bytes 0
    num_bits := num_bits
    num_hashes := num_hashes
    count := 0 }

/-- `BloomFilter::hash`: the raw 64-bit value reduced mod `num_bits`. -/
def BloomFilter.hash (bf : BloomFilter) (key : Bytes) (seed : Nat) : Nat :=
  bloomHashRaw key seed % bf.num_bits

/-- `self.bits[idx] |= mask`. In Rust the index is always in bounds for a
filter built by `new` (proved in `bloom_new_parameters_safe`); `List.set`
is a no-op out of bounds, which is never reached under `BloomFilter.WF`. -/
def orByte (bs : List Nat) (idx mask : Nat) : List Nat :=
  bs.set idx (bs.getD idx 0 ||| mask)

/-- `BloomFilter::insert`: set the `num_hashes` derived bits, bump `count`. -/
def BloomFilter.insert (bf : BloomFilter) (key : Bytes) : BloomFilter :=
  let bits := (List.range bf.num_hashes).foldl
    (fun bs i =>
      let bit := bf.hash key i
      orByte bs (bit / 8) (1 <<< (bit % 8)))
    bf.bits
  { bf with bits := bits, count := bf.count + 1 }

/-- `BloomFilter::may_contain`: false as soon as one derived bit is unset. -/
def BloomFilter.may_contain (bf : BloomFilter) (key : Bytes) : Bool :=
  (List.range bf.num_hashes).all (fun i =>
    let bit := bf.hash key i
    bf.bits.getD (bit / 8) 0 &&& (1 <<< (bit % 8)) != 0)

/-- A sequence of `insert` calls. -/
def BloomFilter.insertList (bf : BloomFilter) (keys : List Bytes) : BloomFilter :=
  keys.foldl BloomFilter.insert bf

/-- Structural well-formedness guaranteed by `BloomFilter::new`: a positive
bit count and a byte vector of exactly `ceil(num_bits/8)` bytes. -/
def BloomFilter.WF (bf : BloomFilter) : Prop :=
  0 < bf.num_bits ∧ bf.bits.length = (bf.num_bits + 7) / 8

/-! ### Bit-level lemmas -/

/-- Test of the bit `bit` in the byte-packed vector, exactly the expression
used by `insert` and `may_contain`. -/
def testBitArr (bs : List Nat) (bit : Nat) : Bool :=
  bs.getD (bit / 8) 0 &&& (1 <<< (bit % 8)) != 0

theorem land_shift_ne_zero_iff (x k : Nat) :
    (x &&& (1 <<< k) != 0) = x.testBit k := by
  rw [Nat.one_shiftLeft, Nat.and_two_pow]
  cases h : x.testBit k with
  | false => simp
  | true => simp [bne_iff_ne, Nat.pow_eq_zero]

theorem byteIdx_lt {bit m : Nat} (h : bit < m) : bit / 8 < (m + 7) / 8 := by
  have h1 : bit + 8 ≤ m + 7 + 1 := by omega
  have h2 : (bit + 8) / 8 ≤ (m + 7 + 1) / 8 := Nat.div_le_div_right h1
  have h3 : (bit + 8) / 8 = bit / 8 + 1 := Nat.add_div_right bit (by norm_num)
  have h4 : (m + 7 + 1) / 8 ≤ (m + 7) / 8 + 1 := by omega
  omega

theorem orByte_length (bs : List Nat) (idx mask : Nat) :
    (orByte bs idx mask).length = bs.length :=
  List.length_set bs idx _

theorem testBitArr_orByte_self {bs : List Nat} {bit : Nat}
    (hlen : bit / 8 < bs.length) :
    testBitArr (orByte bs (bit / 8) (1 <<< (bit % 8))) bit = true := by
  unfold testBitArr orByte
  have hget : (bs.set (bit / 8) (bs.getD (bit / 8) 0 ||| 1 <<< (bit % 8))).get?
      (bit / 8) = some (bs.getD (bit / 8) 0 ||| 1 <<< (bit % 8)) :=
    List.get?_set_eq_of_lt _ hlen
  have : (bs.set (bit / 8) (bs.getD (bit / 8) 0 ||| 1 <<< (bit % 8))).getD
      (bit / 8) 0 = bs.getD (bit / 8) 0 ||| 1 <<< (bit % 8) := by
    show ((bs.set (bit / 8) _).get? (bit / 8)).getD 0 = _
    rw [hget]
    rfl
  rw [this, land_shift_ne_zero_iff, Nat.testBit_lor, Nat.one_shiftLeft,
    Nat.testBit_two_pow_self, Bool.or_true]

theorem testBitArr_orByte_mono {bs : List Nat} {bit : Nat}
    (h : testBitArr bs bit = true) (idx mask : Nat) :
    testBitArr (orByte bs idx mask) bit = true := by
  unfold testBitArr orByte at *
  by_cases hidx : bit / 8 = idx
  · subst hidx
    by_cases hlen : bit / 8 < bs.length
    · have hget : (bs.set (bit / 8) (bs.getD (bit / 8) 0 ||| mask)).get?
          (bit / 8) = some (bs.getD (bit / 8) 0 ||| mask) :=
        List.get?_set_eq_of_lt _ hlen
      have heq : (bs.set (bit / 8) (bs.getD (bit / 8) 0 ||| mask)).getD
          (bit / 8) 0 = bs.getD (bit / 8) 0 ||| mask := by
        show ((bs.set (bit / 8) _).get? (bit / 8)).getD 0 = _
        rw [hget]
        rfl
      rw [heq, land_shift_ne_zero_iff] at *
      rw [Nat.testBit_lor, h, Bool.true_or]
    · rw [List.set_eq_of_length_le (Nat.le_of_not_lt hlen)]
      exact h
  · have hget : (bs.set idx (bs.getD idx 0 ||| mask)).get? (bit / 8)
        = bs.get? (bit / 8) :=
      List.get?_set_ne _ _ (fun hij => hidx hij.symm)
    have heq : (bs.set idx (bs.getD idx 0 ||| mask)).getD (bit / 8) 0
        = bs.getD (bit / 8) 0 := by
      show ((bs.set idx _).get? (bit / 8)).getD 0 = _
      rw [hget]
      rfl
    rw [heq]
    exact h

/-- A bit that is already set stays set through any sequence of `orByte`s. -/
theorem testBitArr_foldl_orByte_mono :
    ∀ (ps : List Nat) (bs : List Nat) (bit : Nat), testBitArr bs bit = true →
      testBitArr (ps.foldl (fun b p => orByte b (p / 8) (1 <<< (p % 8))) bs)
        bit = true := by
  intro ps
  induction ps with
  | nil => intro bs bit h; exact h
  | cons p rest ih =>
    intro bs bit h
    simp only [List.foldl_cons]
    exact ih _ bit (testBitArr_orByte_mono h _ _)

/-- Setting a list of bit positions turns on every listed bit, provided its
byte index is in bounds. -/
theorem testBitArr_foldl_orByte_self :
    ∀ (ps : List Nat) (bs : List Nat) (bit : Nat), bit ∈ ps →
      bit / 8 < bs.length →
      testBitArr (ps.foldl (fun b p => orByte b (p / 8) (1 <<< (p % 8))) bs)
        bit = true := by
  intro ps
  induction ps with
  | nil => intro bs bit hmem _; cases hmem
  | cons p rest ih =>
    intro bs bit hmem hlen
    rcases List.mem_cons.mp hmem with h | h
    · subst h
      simp only [List.foldl_cons]
      exact testBitArr_foldl_orByte_mono rest _ bit (testBitArr_orByte_self hlen)
    · simp only [List.foldl_cons]
      exact ih _ bit h (by rw [orByte_length]; exact hlen)

theorem foldl_orByte_length :
    ∀ (ps : List Nat) (bs : List Nat),
      (ps.foldl (fun b p => orByte b (p / 8) (1 <<< (p % 8))) bs).length
        = bs.length := by
  intro ps
  induction ps with
  | nil => intro bs; rfl
  | cons p rest ih =>
    intro bs
    simp only [List.foldl_cons]
    rw [ih, orByte_length]

instance (bf : BloomFilter) : Decidable bf.WF := by
  unfold BloomFilter.WF
  infer_instance

theorem BloomFilter.insert_bits_eq (bf : BloomFilter) (key : Bytes) :
    (bf.insert key).bits
      = ((List.range bf.num_hashes).map (bf.hash key)).foldl
          (fun b p => orByte b (p / 8) (1 <<< (p % 8))) bf.bits := by
  rw [List.foldl_map]
  rfl

theorem BloomFilter.may_contain_eq (bf : BloomFilter) (key : Bytes) :
    bf.may_contain key
      = (List.range bf.num_hashes).all
          (fun i => testBitArr bf.bits (bf.hash key i)) :=
  rfl

theorem BloomFilter.wf_insert {bf : BloomFilter} (h : bf.WF) (key : Bytes) :
    (bf.insert key).WF := by
  refine ⟨h.1, ?_⟩
  show (bf.insert key).bits.length = (bf.num_bits + 7) / 8
  rw [BloomFilter.insert_bits_eq, foldl_orByte_length]
  exact h.2

theorem BloomFilter.may_contain_insert_self {bf : BloomFilter} (h : bf.WF)
    (key : Bytes) : (bf.insert key).may_contain key = true := by
  rw [BloomFilter.may_contain_eq, List.all_eq_true]
  intro i hi
  show testBitArr (bf.insert key).bits (bf.hash key i) = true
  rw [BloomFilter.insert_bits_eq]
  have hlt : bf.hash key i < bf.num_bits := Nat.mod_lt _ h.1
  have hlen : bf.hash key i / 8 < bf.bits.length := by
    rw [h.2]
    exact byteIdx_lt hlt
  exact testBitArr_foldl_orByte_self _ _ _
    (List.mem_map_of_mem (bf.hash key) hi) hlen

theorem BloomFilter.may_contain_insert_mono {bf : BloomFilter} {key : Bytes}
    (h : bf.may_contain key = true) (k' : Bytes) :
    (bf.insert k').may_contain key = true := by
  rw [BloomFilter.may_contain_eq, List.all_eq_true] at *
  intro i hi
  show testBitArr (bf.insert k').bits (bf.hash key i) = true
  rw [BloomFilter.insert_bits_eq]
  exact testBitArr_foldl_orByte_mono _ _ _ (h i hi)

theorem BloomFilter.may_contain_insertList_mono {bf : BloomFilter}
    {key : Bytes} (h : bf.may_contain key = true) :
    ∀ keys : List Bytes, (bf.insertList keys).may_contain key = true := by
  intro keys
  induction keys generalizing bf with
  | nil => exact h
  | cons k rest ih =>
    show ((bf.insert k).insertList rest).may_contain key = true
    exact ih (BloomFilter.may_contain_insert_mono h k)

/-- C8: Bloom filter soundness. For every well-formed filter (as built by
`BloomFilter::new`) and every finite sequence of `insert` calls,
`may_contain` returns `true` for every inserted key: no false negatives
(there is no removal operation on the filter). -/
theorem bloom_no_false_negatives (bf : BloomFilter) (keys : List Bytes)
    (key : Bytes) (hwf : bf.WF) (hmem : key ∈ keys) :
    (bf.insertList keys).may_contain key = true := by
  induction keys generalizing bf with
  | nil => cases hmem
  | cons k rest ih =>
    show ((bf.insert k).insertList rest).may_contain key = true
    rcases List.mem_cons.mp hmem with h | h
    · subst h
      exact BloomFilter.may_contain_insertList_mono
        (BloomFilter.may_contain_insert_self hwf key) rest
    · exact ih _ (BloomFilter.wf_insert hwf k) h

/-- Witness for C8: a concrete fresh filter, two inserted keys, and a lookup
of the second one. -/
theorem bloom_no_false_negatives_witness :
    (BloomFilter.new 0 3).WF
    ∧ ([104, 105] : Bytes) ∈ [([102] : Bytes), [104, 105]]
    ∧ ((BloomFilter.new 0 3).insertList
        [[102], [104, 105]]).may_contain [104, 105] = true :=
  ⟨by decide, by decide,
    bloom_no_false_negatives (BloomFilter.new 0 3) [[102], [104, 105]]
      [104, 105] (by decide) (by decide)⟩

/-- C10: for every possible outcome of the float computation in
`BloomFilter::new` (hence for every `expected_items`, including 0, and every
`fp_rate`), the constructed filter has `num_bits ≥ 64`, `num_hashes` between
1 and 16, a `bits` vector of exactly `ceil(num_bits/8)` bytes, and every byte
index derived by `hash` (as used by both `insert` and `may_contain`) is
strictly within the `bits` vector, so neither operation can index out of
bounds. -/
theorem bloom_new_parameters_safe (rawBits rawHashes : Nat) :
    64 ≤ (BloomFilter.new rawBits rawHashes).num_bits
    ∧ 1 ≤ (BloomFilter.new rawBits rawHashes).num_hashes
    ∧ (BloomFilter.new rawBits rawHashes).num_hashes ≤ 16
    ∧ (BloomFilter.new rawBits rawHashes).bits.length
        = ((BloomFilter.new rawBits rawHashes).num_bits + 7) / 8
    ∧ ∀ (key : Bytes) (seed : Nat),
        (BloomFilter.new rawBits rawHashes).hash key seed / 8
          < (BloomFilter.new rawBits rawHashes).bits.length := by
  refine ⟨Nat.le_max_right _ _, ?_, Nat.min_le_right _ _, ?_, ?_⟩
  · exact Nat.le_min.mpr ⟨Nat.le_max_right rawHashes 1, by norm_num⟩
  · show (List.replicate ((max rawBits 64 + 7) / 8) 0).length
        = (max rawBits 64 + 7) / 8
    exact List.length_replicate _ _
  · intro key seed
    have hpos : 0 < (BloomFilter.new rawBits rawHashes).num_bits :=
      lt_of_lt_of_le (by norm_num) (Nat.le_max_right rawBits 64)
    have hlt : (BloomFilter.new rawBits rawHashes).hash key seed
        < (BloomFilter.new rawBits rawHashes).num_bits :=
      Nat.mod_lt _ hpos
    show (BloomFilter.new rawBits rawHashes).hash key seed / 8
        < (List.replicate ((max rawBits 64 + 7) / 8) 0).length
    rw [List.length_replicate]
    exact byteIdx_lt hlt

/-! ## WAL (`src/wal.rs`)

Transaction ids (`u64`) are `Nat`; commit ids are digests (`Hash`). -/

/-- `WalEntry` (`src/wal.rs`). -/
inductive WalEntry where
  | begin (tx_id : Nat)
  | write (tx_id : Nat) (key : Str) (value : Bytes)
  | delete (tx_id : Nat) (key : Str)
  | commit (tx_id : Nat) (commit_id : Hash)
  | rollback (tx_id : Nat)
deriving DecidableEq, Repr

/-- `HashSet::insert`, as a duplicate-free list (membership-faithful). -/
def setInsert (s : List Nat) (x : Nat) : List Nat :=
  if x ∈ s then s else x :: s

/-- `HashMap::contains_key`. -/
def mapContainsKey (m : List (Nat × Hash)) (k : Nat) : Bool :=
  (alistLookup k m).isSome

/-- `WalRecovery` (`src/wal.rs`). -/
structure WalRecovery where
  committed : List (Nat × Hash)
  uncommitted : List Nat
  entries : List WalEntry
deriving DecidableEq, Repr

/-- The three collections built by the `Wal::recover` scan. -/
structure RecoverAcc where
  begun : List Nat
  committed : List (Nat × Hash)
  rolledBack : List Nat
deriving DecidableEq, Repr

/-- One iteration of the `for entry in &entries` loop in `Wal::recover`. -/
def recoverStep (acc : RecoverAcc) : WalEntry → RecoverAcc
  | .begin t => { acc with begun := setInsert acc.begun t }
  | .commit t c => { acc with committed := alistUpsert t c acc.committed }
  | .rollback t => { acc with rolledBack := setInsert acc.rolledBack t }
  | _ => acc

/-- `Wal::recover`: scan all entries into `begun` / `committed` /
`rolled_back`, then classify as uncommitted every begun transaction that is
neither committed nor rolled back. -/
def Wal.recover (entries : List WalEntry) : WalRecovery :=
  let acc := entries.foldl recoverStep ⟨[], [], []⟩
  { committed := acc.committed
    uncommitted := acc.begun.filter
      (fun t => !mapContainsKey acc.committed t && !acc.rolledBack.contains t)
    entries := entries }

theorem mem_setInsert {s : List Nat} {x y : Nat} :
    y ∈ setInsert s x ↔ y = x ∨ y ∈ s := by
  unfold setInsert
  by_cases h : x ∈ s
  · rw [if_pos h]
    constructor
    · exact Or.inr
    · rintro (rfl | hy)
      · exact h
      · exact hy
  · rw [if_neg h]
    exact List.mem_cons

theorem mapContainsKey_upsert {m : List (Nat × Hash)} {k t : Nat} {v : Hash} :
    mapContainsKey (alistUpsert k v m) t = true
      ↔ t = k ∨ mapContainsKey m t = true := by
  unfold mapContainsKey
  by_cases h : t = k
  · subst h
    simp [alistLookup_upsert_self]
  · rw [alistLookup_upsert_ne _ _ h]
    simp [h]

theorem begun_foldl_recoverStep :
    ∀ (es : List WalEntry) (acc : RecoverAcc) (t : Nat),
      t ∈ (es.foldl recoverStep acc).begun
        ↔ t ∈ acc.begun ∨ WalEntry.begin t ∈ es := by
  intro es
  induction es with
  | nil => intro acc t; simp
  | cons e rest ih =>
    intro acc t
    rw [List.foldl_cons, ih, List.mem_cons]
    cases e <;> simp [recoverStep, mem_setInsert] <;> tauto

theorem committed_foldl_recoverStep :
    ∀ (es : List WalEntry) (acc : RecoverAcc) (t : Nat),
      mapContainsKey (es.foldl recoverStep acc).committed t = true
        ↔ mapContainsKey acc.committed t = true
          ∨ ∃ c, WalEntry.commit t c ∈ es := by
  intro es
  induction es with
  | nil => intro acc t; simp
  | cons e rest ih =>
    intro acc t
    rw [List.foldl_cons, ih]
    cases e with
    | commit t' c' =>
      simp only [recoverStep, mapContainsKey_upsert]
      constructor
      · rintro ((rfl | h) | ⟨c, hc⟩)
        · exact Or.inr ⟨c', List.mem_cons_self _ _⟩
        · exact Or.inl h
        · exact Or.inr ⟨c, List.mem_cons_of_mem _ hc⟩
      · rintro (h | ⟨c, hc⟩)
        · exact Or.inl (Or.inr h)
        · rcases List.mem_cons.mp hc with h' | h'
          · cases h'
            exact Or.inl (Or.inl rfl)
          · exact Or.inr ⟨c, h'⟩
    | begin t' => simp [recoverStep] <;> tauto
    | write t' k v => simp [recoverStep]
    | delete t' k => simp [recoverStep]
    | rollback t' => simp [recoverStep]

theorem rolledBack_foldl_recoverStep :
    ∀ (es : List WalEntry) (acc : RecoverAcc) (t : Nat),
      t ∈ (es.foldl recoverStep acc).rolledBack
        ↔ t ∈ acc.rolledBack ∨ WalEntry.rollback t ∈ es := by
  intro es
  induction es with
  | nil => intro acc t; simp
  | cons e rest ih =>
    intro acc t
    rw [List.foldl_cons, ih, List.mem_cons]
    cases e <;> simp [recoverStep, mem_setInsert] <;> tauto

/-- The classification computed by `Wal::recover`: a transaction id is listed
as uncommitted iff the entries contain a `Begin` for it but no `Commit` and
no `Rollback` for it. -/
theorem wal_recover_uncommitted_iff (entries : List WalEntry) (t : Nat) :
    t ∈ (Wal.recover entries).uncommitted
      ↔ WalEntry.begin t ∈ entries
        ∧ (∀ c, WalEntry.commit t c ∉ entries)
        ∧ WalEntry.rollback t ∉ entries := by
  have hbeg := begun_foldl_recoverStep entries ⟨[], [], []⟩ t
  have hcom := committed_foldl_recoverStep entries ⟨[], [], []⟩ t
  have hrb := rolledBack_foldl_recoverStep entries ⟨[], [], []⟩ t
  unfold Wal.recover
  simp only [List.mem_filter, Bool.and_eq_true, Bool.not_eq_true']
  constructor
  · rintro ⟨hb, hc, hr⟩
    have hb' : WalEntry.begin t ∈ entries := by
      rcases hbeg.mp hb with h | h
      · simp at h
      · exact h
    refine ⟨hb', ?_, ?_⟩
    · intro c hc'
      have h1 := hcom.mpr (Or.inr ⟨c, hc'⟩)
      rw [hc] at h1
      cases h1
    · intro hr'
      have h2 := hrb.mpr (Or.inr hr')
      have h3 : (entries.foldl recoverStep ⟨[], [], []⟩).rolledBack.contains t
          = true := List.elem_eq_true_of_mem h2
      rw [hr] at h3
      cases h3
  · rintro ⟨hb, hc, hr⟩
    refine ⟨hbeg.mpr (Or.inr hb), ?_, ?_⟩
    · cases hcb : mapContainsKey
          (entries.foldl recoverStep ⟨[], [], []⟩).committed t
      · rfl
      · exfalso
        rcases hcom.mp hcb with h | ⟨c, h⟩
        · simp [mapContainsKey, alistLookup] at h
        · exact hc c h
    · cases hrbb : (entries.foldl recoverStep ⟨[], [], []⟩).rolledBack.contains t
      · rfl
      · exfalso
        have hmem := List.mem_of_elem_eq_true hrbb
        rcases hrb.mp hmem with h | h
        · simp at h
        · exact hr h

/-! ## Commits (`src/commit.rs`) and errors (`src/error.rs`) -/

/-- `Commit` (`src/commit.rs`). `DateTime<Utc>` timestamps are an
environment input (`Utc::now()`), modelled as `Int`. -/
structure CommitObj where
  id : Hash
  parent : Option Hash
  tree_root : Hash
  timestamp : Int
  message : Str
deriving DecidableEq, Repr

/-- Byte encoding of the four-field commit digest payload
`parent:<id|none>\ntree:<id>\ntime:<rfc3339>\nmsg:<message>`: the fields are
fed to the digest in order, numeric fields encoded directly rather than as
decimal text (the digest stand-in only needs determinism). -/
def commitIdPayload (parent : Option Hash) (tree_root : Hash)
    (timestamp : Int) (message : Str) : Bytes :=
  (match parent with
    | some p => [1, p]
    | none => [0])
  ++ [tree_root]
  ++ (if timestamp < 0 then [0, timestamp.natAbs] else [1, timestamp.natAbs])
  ++ encodeStr message

/-- `Commit::compute_id`. -/
def computeCommitId (parent : Option Hash) (tree_root : Hash)
    (timestamp : Int) (message : Str) : Hash :=
  computeHash (commitIdPayload parent tree_root timestamp message)

/-- `Commit::new` / `Commit::with_timestamp` (the timestamp is explicit). -/
def CommitObj.new (parent : Option Hash) (tree_root : Hash) (message : Str)
    (timestamp : Int) : CommitObj :=
  { id := computeCommitId parent tree_root timestamp message
    parent := parent
    tree_root := tree_root
    timestamp := timestamp
    message := message }

/-- `IcebergError` (`src/error.rs`); the `Io` and `Serde` variants wrap
outside-world failures and are not modelled. -/
inductive DbErr where
  | KeyNotFound (key : Str)
  | BranchNotFound (name : Str)
  | BranchExists (name : Str)
  | CommitNotFound (id : Hash)
  | EmptyDatabase
  | Corruption (msg : Str)
deriving DecidableEq, Repr

instance {ε α : Type} [DecidableEq ε] [DecidableEq α] :
    DecidableEq (Except ε α)
  | .ok a, .ok b =>
    if h : a = b then .isTrue (by rw [h]) else .isFalse (by simp [h])
  | .ok _, .error _ => .isFalse (by simp)
  | .error _, .ok _ => .isFalse (by simp)
  | .error e, .error f =>
    if h : e = f then .isTrue (by rw [h]) else .isFalse (by simp [h])

/-! ## Database state and operations (`src/db.rs`)

`DbState` carries the parts of the store read or written by the operations
verified below: the `commits/` and `trees/` directories, the refs file
(branches map plus `head`), and the WAL (entries plus in-memory `next_tx`).
The block store, the bloom file and the secondary-index file are written only
after the points these claims are about and are omitted. -/

structure DbState where
  commits : List (Hash × CommitObj)
  trees : List (Hash × Tree)
  branches : List (Str × Hash)
  head : Str
  wal : List WalEntry
  nextTx : Nat
deriving DecidableEq, Repr

namespace Database

/-- `Database::load_commit`. -/
def loadCommit (s : DbState) (id : Hash) : Except DbErr CommitObj :=
  match alistLookup id s.commits with
  | some c => .ok c
  | none => .error (.CommitNotFound id)

/-- `Database::load_tree` (missing file → `Corruption("tree not found")`). -/
def loadTree (s : DbState) (h : Hash) : Except DbErr Tree :=
  match alistLookup h s.trees with
  | some t => .ok t
  | none => .error (.Corruption "tree not found".data)

/-- `Database::head_commit`. -/
def headCommit (s : DbState) : Except DbErr CommitObj :=
  match alistLookup s.head s.branches with
  | some cid => loadCommit s cid
  | none => .error .EmptyDatabase

/-- `Database::current_tree`. -/
def currentTree (s : DbState) : Except DbErr Tree :=
  match headCommit s with
  | .ok c => loadTree s c.tree_root
  | .error e => .error e

/-- `Database::recover_wal`: run the recovery analysis (which replays
nothing) and truncate the WAL file to empty. -/
def recoverWal (s : DbState) : DbState :=
  { s with wal := [] }

/-- `Wal::begin` under the database's WAL lock: allocate `next_tx`, bump it,
append `Begin`. -/
def walBegin (s : DbState) : DbState × Nat :=
  let tx := s.nextTx
  ({ s with nextTx := s.nextTx + 1, wal := s.wal ++ [WalEntry.begin tx] }, tx)

/-- `Database::commit_tree`: save the tree under its root hash, persist the
value blocks (block store omitted), create a commit whose parent is the
current head (if any), save it, and advance the current branch ref.
(`head_commit` reads only the refs and `commits/`, which the preceding tree
save does not touch, so it is taken on the input state.) -/
def commitTree (s : DbState) (tree : Tree) (message : Str) (now : Int) :
    DbState × CommitObj :=
  let s1 := { s with trees := alistUpsert tree.root_hash tree s.trees }
  let parent := match headCommit s with
    | .ok c => some c.id
    | .error _ => none
  let commit := CommitObj.new parent tree.root_hash message now
  let s2 := { s1 with commits := alistUpsert commit.id commit s1.commits }
  let s3 := { s2 with branches := alistUpsert s2.head commit.id s2.branches }
  (s3, commit)

/-- `Database::delete`: fail with `KeyNotFound` (before beginning any WAL
transaction or touching the store) if the key is absent from the current
tree; otherwise WAL-begin plus intent, commit the tree without the key, and
WAL-commit. (The secondary-index update after the WAL commit touches only
omitted state.) -/
def delete (s : DbState) (key : Str) (message : Option Str) (now : Int) :
    DbState × Except DbErr CommitObj :=
  match currentTree s with
  | .error e => (s, .error e)
  | .ok tree =>
    if ¬tree.containsKey key then (s, .error (.KeyNotFound key))
    else
      let p1 := walBegin s
      let s2 := { p1.1 with wal := p1.1.wal ++ [WalEntry.delete p1.2 key] }
      let newTree := tree.deleteKey key
      let msg := message.getD ("delete ".data ++ key)
      let p2 := commitTree s2 newTree msg now
      let s4 := { p2.1 with wal := p2.1.wal ++ [WalEntry.commit p1.2 p2.2.id] }
      (s4, .ok p2.2)

/-- Insertion into an ascending list of names. -/
def sortedInsertStr (x : Str) : List Str → List Str
  | [] => [x]
  | y :: rest => if x ≤ y then x :: y :: rest else y :: sortedInsertStr x rest

/-- `Vec::sort` on branch names, as insertion sort (same sorted result). -/
def sortStrs (l : List Str) : List Str :=
  l.foldr sortedInsertStr []

/-- `Database::branches`: sorted branch names; the head branch is included
(and the list re-sorted) even if it has no commits yet. -/
def branchesList (s : DbState) : List Str :=
  let names := sortStrs (s.branches.map Prod.fst)
  if names.contains s.head then names
  else sortStrs (names ++ [s.head])

/-- `Database::create_branch`: reject an existing name; copy the current
branch's head id under the new name if the current branch has one; otherwise
save the refs unchanged ("branch will be created on first commit"). -/
def createBranch (s : DbState) (name : Str) : DbState × Except DbErr Unit :=
  if (alistLookup name s.branches).isSome then
    (s, .error (.BranchExists name))
  else
    match alistLookup s.head s.branches with
    | some headId =>
      ({ s with branches := alistUpsert name headId s.branches }, .ok ())
    | none => (s, .ok ())

/-- `Database::checkout`: rebind `head` when the name is a known branch, is
the current head, or is listed by `branches()`. -/
def checkout (s : DbState) (name : Str) : DbState × Except DbErr Unit :=
  let known := (alistLookup name s.branches).isSome || s.head == name
      || (branchesList s).contains name
  if known then ({ s with head := name }, .ok ())
  else (s, .error (.BranchNotFound name))

/-- `Database::merge`: resolve the source branch and its tree, take the
current tree (empty if the current branch has no commits), overlay every
source entry on top of the current entries (source wins on overlap), and
commit the merged tree on the current branch. -/
def merge (s : DbState) (sourceBranch : Str) (message : Option Str)
    (now : Int) : DbState × Except DbErr CommitObj :=
  match alistLookup sourceBranch s.branches with
  | none => (s, .error (.BranchNotFound sourceBranch))
  | some sourceId =>
    match loadCommit s sourceId with
    | .error e => (s, .error e)
    | .ok c =>
      match loadTree s c.tree_root with
      | .error e => (s, .error e)
      | .ok sourceTree =>
        let currentT := match currentTree s with
          | .ok t => t
          | .error _ => Tree.empty
        let merged := sourceTree.entries.foldl
          (fun m p => insertEntry p.1 p.2 m) currentT.entries
        let mergedTree : Tree :=
          { root_hash := computeRoot merged, entries := merged }
        let msg := message.getD ("merge branch ".data ++ sourceBranch)
        let p := commitTree s mergedTree msg now
        (p.1, .ok p.2)

/-- One `added`/`modified` application step of `Database::cherry_pick`: take
the value from the picked commit's tree if present there. -/
def pickStep (ct : Tree) (t : Tree) (key : Str) : Tree :=
  match ct.get key with
  | some v => t.insertKV key v
  | none => t

/-- One `removed` application step of `Database::cherry_pick`: delete the key
if present. -/
def delStep (t : Tree) (key : Str) : Tree :=
  if t.containsKey key then t.deleteKey key else t

/-- The picked commit's parent tree (`Tree::empty` for a root commit). -/
def pickParentTree (s : DbState) (c : CommitObj) : Except DbErr Tree :=
  match c.parent with
  | some pid =>
    match loadCommit s pid with
    | .ok pc => loadTree s pc.tree_root
    | .error e => .error e
  | none => .ok Tree.empty

/-- `Database::cherry_pick`: diff the picked commit against its parent and
apply that diff to the current tree (empty if none): `added` and `modified`
keys take values from the commit's tree, `removed` keys are deleted if
present; then commit the result on the current branch. (The human-readable
default message is irrelevant to every claim.) -/
def cherryPick (s : DbState) (commitId : Hash) (message : Option Str)
    (now : Int) : DbState × Except DbErr CommitObj :=
  match loadCommit s commitId with
  | .error e => (s, .error e)
  | .ok commit =>
    match loadTree s commit.tree_root with
    | .error e => (s, .error e)
    | .ok commitTreeV =>
      match pickParentTree s commit with
      | .error e => (s, .error e)
      | .ok parentTree =>
        let d := parentTree.diff commitTreeV
        let cur0 := match currentTree s with
          | .ok t => t
          | .error _ => Tree.empty
        let cur1 := d.added.foldl (pickStep commitTreeV) cur0
        let cur2 := d.modified.foldl (pickStep commitTreeV) cur1
        let cur3 := d.removed.foldl delStep cur2
        let msg := message.getD ("cherry-pick ".data)
        let p := commitTree s cur3 msg now
        (p.1, .ok p.2)

end Database

/-- C2: WAL recovery on open classifies a transaction as uncommitted iff the
entry list contains a `Begin` record for its id but neither a `Commit` nor a
`Rollback` record for it; uncommitted transactions are discarded without
replaying anything (`recover_wal` leaves every store component untouched),
and afterwards the WAL is truncated to zero length. -/
theorem wal_recovery_spec (s : DbState) (t : Nat) :
    (t ∈ (Wal.recover s.wal).uncommitted
      ↔ WalEntry.begin t ∈ s.wal
        ∧ (∀ c, WalEntry.commit t c ∉ s.wal)
        ∧ WalEntry.rollback t ∉ s.wal)
    ∧ (Database.recoverWal s).wal = []
    ∧ (Database.recoverWal s).commits = s.commits
    ∧ (Database.recoverWal s).trees = s.trees
    ∧ (Database.recoverWal s).branches = s.branches
    ∧ (Database.recoverWal s).head = s.head
    ∧ (Database.recoverWal s).nextTx = s.nextTx :=
  ⟨wal_recover_uncommitted_iff s.wal t, rfl, rfl, rfl, rfl, rfl, rfl⟩

/-- C9: whenever the current head tree resolves and does not contain the
key, `delete` fails with `KeyNotFound` and the store is completely
unchanged: no WAL transaction is begun, no commit or tree is written, and
the refs are untouched (the returned state is the input state). -/
theorem delete_missing_key_spec (s : DbState) (key : Str)
    (message : Option Str) (now : Int) (t : Tree)
    (h1 : Database.currentTree s = .ok t)
    (h2 : t.containsKey key = false) :
    Database.delete s key message now = (s, .error (.KeyNotFound key)) := by
  unfold Database.delete
  rw [h1]
  simp [h2]

/-- Head tree of the C9 witness state. -/
def deleteWitnessTree : Tree :=
  { root_hash := 7, entries := [("a".data, [1])] }

/-- A one-commit database state whose head tree holds only the key `"a"`. -/
def deleteWitnessState : DbState :=
  { commits := [(5, CommitObj.mk 5 none 7 0 "m".data)]
    trees := [(7, deleteWitnessTree)]
    branches := [("main".data, 5)]
    head := "main".data
    wal := []
    nextTx := 1 }

/-- Witness for C9 at a one-commit state whose head tree lacks the key
`"x"`. -/
theorem delete_missing_key_spec_witness :
    Database.currentTree deleteWitnessState = .ok deleteWitnessTree
    ∧ deleteWitnessTree.containsKey "x".data = false
    ∧ Database.delete deleteWitnessState "x".data none 0
        = (deleteWitnessState, .error (.KeyNotFound "x".data)) :=
  ⟨by decide, by decide,
    delete_missing_key_spec _ "x".data none 0 deleteWitnessTree
      (by decide) (by decide)⟩

/-! ### Merge (C6) -/

theorem alistLookup_eq_none_of_ne {κ α : Type} [DecidableEq κ] {k : κ} :
    ∀ l : List (κ × α), (∀ p ∈ l, k ≠ p.1) → alistLookup k l = none := by
  intro l
  induction l with
  | nil => intro _; rfl
  | cons p rest ih =>
    intro h
    obtain ⟨pk, pv⟩ := p
    simp only [alistLookup, if_neg (h (pk, pv) (List.mem_cons_self _ _))]
    exact ih fun q hq => h q (List.mem_cons_of_mem _ hq)

/-- Overlaying a duplicate-free entry list on a base map: lookup prefers the
overlay and falls back to the base. -/
theorem alistLookup_foldl_insertEntry :
    ∀ (l : Entries) (m : Entries) (k : Str),
      l.Pairwise (fun a b => a.1 ≠ b.1) →
      alistLookup k (l.foldl (fun acc p => insertEntry p.1 p.2 acc) m)
        = (match alistLookup k l with
            | some v => some v
            | none => alistLookup k m) := by
  intro l
  induction l with
  | nil => intro m k _; rfl
  | cons p rest ih =>
    intro m k hdist
    obtain ⟨pk, pv⟩ := p
    rw [List.pairwise_cons] at hdist
    obtain ⟨hhead, htail⟩ := hdist
    rw [List.foldl_cons, ih _ k htail]
    by_cases hk : k = pk
    · subst hk
      have hnone : alistLookup k rest = none :=
        alistLookup_eq_none_of_ne rest fun q hq => hhead q hq
      rw [hnone, alistLookup_insertEntry_self]
      simp [alistLookup]
    · rw [alistLookup_insertEntry_ne _ hk]
      simp [alistLookup, hk]

theorem commitTree_snd_parent (s : DbState) (tree : Tree) (msg : Str)
    (now : Int) {hc : CommitObj} (hhead : Database.headCommit s = .ok hc) :
    (Database.commitTree s tree msg now).2.parent = some hc.id := by
  unfold Database.commitTree
  rw [hhead]
  rfl

theorem commitTree_snd_tree_root (s : DbState) (tree : Tree) (msg : Str)
    (now : Int) :
    (Database.commitTree s tree msg now).2.tree_root = tree.root_hash :=
  rfl

theorem commitTree_fst_head (s : DbState) (tree : Tree) (msg : Str)
    (now : Int) :
    (Database.commitTree s tree msg now).1.head = s.head :=
  rfl

theorem commitTree_fst_trees (s : DbState) (tree : Tree) (msg : Str)
    (now : Int) :
    alistLookup tree.root_hash (Database.commitTree s tree msg now).1.trees
      = some tree :=
  alistLookup_upsert_self tree.root_hash tree s.trees

theorem commitTree_fst_branches (s : DbState) (tree : Tree) (msg : Str)
    (now : Int) :
    alistLookup s.head (Database.commitTree s tree msg now).1.branches
      = some (Database.commitTree s tree msg now).2.id :=
  alistLookup_upsert_self s.head _ s.branches

/-- C6: when both the source branch and the current branch resolve, `merge`
creates a commit `c` on the current branch whose parent is the previous
current head; the tree `M` stored under `c.tree_root` satisfies, for every
key, `M[k] = S[k]` if the source tree `S` has `k`, else `M[k] = C[k]` where
`C` is the current tree (source wins on overlap, no other keys). -/
theorem merge_spec (s : DbState) (sourceBranch : Str) (message : Option Str)
    (now : Int) (sid : Hash) (sc : CommitObj) (S : Tree) (hc : CommitObj)
    (C : Tree)
    (hb : alistLookup sourceBranch s.branches = some sid)
    (hsc : Database.loadCommit s sid = .ok sc)
    (hS : Database.loadTree s sc.tree_root = .ok S)
    (hhead : Database.headCommit s = .ok hc)
    (hC : Database.loadTree s hc.tree_root = .ok C)
    (hSsorted : entriesSorted S.entries) :
    ∃ c M,
      (Database.merge s sourceBranch message now).2 = .ok c
      ∧ alistLookup c.tree_root
          (Database.merge s sourceBranch message now).1.trees = some M
      ∧ (∀ k, alistLookup k M.entries
          = (match alistLookup k S.entries with
              | some v => some v
              | none => alistLookup k C.entries))
      ∧ c.parent = some hc.id
      ∧ (Database.merge s sourceBranch message now).1.head = s.head
      ∧ alistLookup s.head
          (Database.merge s sourceBranch message now).1.branches
        = some c.id := by
  have hcur : Database.currentTree s = .ok C := by
    unfold Database.currentTree
    rw [hhead]
    exact hC
  have hdist : S.entries.Pairwise (fun a b => a.1 ≠ b.1) :=
    hSsorted.imp fun h => ne_of_lt h
  unfold Database.merge
  simp only [hb, hsc, hS, hcur]
  refine ⟨_, Tree.mk
      (computeRoot (S.entries.foldl (fun m p => insertEntry p.1 p.2 m) C.entries))
      (S.entries.foldl (fun m p => insertEntry p.1 p.2 m) C.entries),
    rfl, ?_, ?_, ?_, ?_, ?_⟩
  · rw [commitTree_snd_tree_root]
    exact commitTree_fst_trees s _ _ now
  · intro k
    exact alistLookup_foldl_insertEntry S.entries C.entries k hdist
  · exact commitTree_snd_parent s _ _ now hhead
  · exact commitTree_fst_head s _ _ now
  · exact commitTree_fst_branches s _ _ now

/-- Two-branch database for the C6 witness: `main` at commit 10 (tree 71,
entries `b↦[2], c↦[3]`), `feat` at commit 20 (tree 70, entries
`a↦[1], b↦[9]`). -/
def mergeWitnessState : DbState :=
  { commits := [(10, CommitObj.mk 10 none 71 0 "m".data), (20, CommitObj.mk 20 none 70 0 "s".data)]
    trees := [(70, Tree.mk 70 [("a".data, [1]), ("b".data, [9])]), (71, Tree.mk 71 [("b".data, [2]), ("c".data, [3])])]
    branches := [("main".data, 10), ("feat".data, 20)]
    head := "main".data
    wal := []
    nextTx := 1 }

/-- Witness for C6: merging branch `feat` into `main` on
`mergeWitnessState`. -/
theorem merge_spec_witness :
    alistLookup "feat".data mergeWitnessState.branches = some 20
    ∧ Database.loadCommit mergeWitnessState 20
        = .ok (CommitObj.mk 20 none 70 0 "s".data)
    ∧ Database.loadTree mergeWitnessState 70
        = .ok (Tree.mk 70 [("a".data, [1]), ("b".data, [9])])
    ∧ Database.headCommit mergeWitnessState
        = .ok (CommitObj.mk 10 none 71 0 "m".data)
    ∧ Database.loadTree mergeWitnessState 71
        = .ok (Tree.mk 71 [("b".data, [2]), ("c".data, [3])])
    ∧ entriesSorted (Tree.mk 70 [("a".data, [1]), ("b".data, [9])]).entries
    ∧ ∃ c M,
        (Database.merge mergeWitnessState "feat".data none 0).2 = .ok c
        ∧ alistLookup c.tree_root
            (Database.merge mergeWitnessState "feat".data none 0).1.trees
          = some M
        ∧ (∀ k, alistLookup k M.entries
            = (match alistLookup k
                  (Tree.mk 70 [("a".data, [1]), ("b".data, [9])]).entries with
                | some v => some v
                | none => alistLookup k
                    (Tree.mk 71 [("b".data, [2]), ("c".data, [3])]).entries))
        ∧ c.parent = some (CommitObj.mk 10 none 71 0 "m".data).id
        ∧ (Database.merge mergeWitnessState "feat".data none 0).1.head
            = mergeWitnessState.head
        ∧ alistLookup mergeWitnessState.head
            (Database.merge mergeWitnessState "feat".data none 0).1.branches
          = some c.id :=
  ⟨by decide, by decide, by decide, by decide, by decide, by decide,
    merge_spec mergeWitnessState "feat".data none 0 20
      (CommitObj.mk 20 none 70 0 "s".data)
      (Tree.mk 70 [("a".data, [1]), ("b".data, [9])])
      (CommitObj.mk 10 none 71 0 "m".data)
      (Tree.mk 71 [("b".data, [2]), ("c".data, [3])])
      (by decide) (by decide) (by decide) (by decide) (by decide) (by decide)⟩

/-! ### Cherry-pick (C7) -/

theorem alistLookup_isSome_of_mem {κ α : Type} [DecidableEq κ]
    {l : List (κ × α)} {p : κ × α} (h : p ∈ l) :
    (alistLookup p.1 l).isSome = true := by
  induction l with
  | nil => cases h
  | cons q rest ih =>
    obtain ⟨qk, qv⟩ := q
    by_cases hk : p.1 = qk
    · simp [alistLookup, hk]
    · rcases List.mem_cons.mp h with h' | h'
      · rw [h'] at hk
        exact absurd rfl hk
      · simp only [alistLookup, if_neg hk]
        exact ih h'

theorem diff_added_sub {P T : Tree} {k : Str} (h : k ∈ (P.diff T).added) :
    (T.get k).isSome = true ∧ alistLookup k P.entries = none := by
  unfold Tree.diff at h
  simp only [List.mem_map] at h
  obtain ⟨p, hp, hpk⟩ := h
  rw [List.mem_filter] at hp
  subst hpk
  refine ⟨alistLookup_isSome_of_mem hp.1, ?_⟩
  have := hp.2
  rw [Option.isNone_iff_eq_none] at this
  exact this

theorem diff_modified_sub {P T : Tree} {k : Str}
    (h : k ∈ (P.diff T).modified) : (T.get k).isSome = true := by
  unfold Tree.diff at h
  simp only [List.mem_map] at h
  obtain ⟨p, hp, hpk⟩ := h
  rw [List.mem_filter] at hp
  subst hpk
  exact alistLookup_isSome_of_mem hp.1

theorem diff_removed_sub {P T : Tree} {k : Str}
    (h : k ∈ (P.diff T).removed) : alistLookup k T.entries = none := by
  unfold Tree.diff at h
  simp only [List.mem_map] at h
  obtain ⟨p, hp, hpk⟩ := h
  rw [List.mem_filter] at hp
  subst hpk
  have := hp.2
  rw [Option.isNone_iff_eq_none] at this
  exact this

theorem get_pickStep (ct t : Tree) (k0 k : Str) :
    (Database.pickStep ct t k0).get k
      = if k = k0 ∧ (ct.get k0).isSome then ct.get k0 else t.get k := by
  unfold Database.pickStep
  cases hct0 : ct.get k0 with
  | some v =>
    by_cases hk : k = k0
    · subst hk
      rw [if_pos ⟨rfl, rfl⟩]
      exact alistLookup_insertEntry_self k v t.entries
    · rw [if_neg (fun h => hk h.1)]
      exact alistLookup_insertEntry_ne v hk t.entries
  | none =>
    rw [if_neg (fun h => by cases h.2)]

theorem get_foldl_pickStep (ct : Tree) :
    ∀ (ks : List Str) (t : Tree) (k : Str),
      (ks.foldl (Database.pickStep ct) t).get k
        = if k ∈ ks ∧ (ct.get k).isSome then ct.get k else t.get k := by
  intro ks
  induction ks with
  | nil =>
    intro t k
    rw [if_neg (fun h => List.not_mem_nil k h.1)]
    rfl
  | cons k0 rest ih =>
    intro t k
    rw [List.foldl_cons, ih, get_pickStep]
    by_cases hmem : k ∈ rest ∧ (ct.get k).isSome
    · rw [if_pos hmem, if_pos ⟨List.mem_cons_of_mem _ hmem.1, hmem.2⟩]
    · rw [if_neg hmem]
      by_cases hk : k = k0
      · subst hk
        by_cases hsome : (ct.get k).isSome
        · rw [if_pos ⟨rfl, hsome⟩, if_pos ⟨List.mem_cons_self _ _, hsome⟩]
        · rw [if_neg (fun h => hsome h.2), if_neg (fun h => hsome h.2)]
      · rw [if_neg (fun h => hk h.1)]
        have hout : ¬(k ∈ k0 :: rest ∧ (ct.get k).isSome = true) := by
          rintro ⟨hmem', hsome⟩
          rcases List.mem_cons.mp hmem' with h | h
          · exact hk h
          · exact hmem ⟨h, hsome⟩
        rw [if_neg hout]

theorem get_delStep (t : Tree) (hs : entriesSorted t.entries) (k0 k : Str) :
    (Database.delStep t k0).get k = if k = k0 then none else t.get k := by
  unfold Database.delStep
  by_cases hk : k = k0
  · subst hk
    rw [if_pos rfl]
    by_cases hc : t.containsKey k
    · rw [if_pos hc]
      exact alistLookup_deleteEntry_self k t.entries hs
    · rw [if_neg hc]
      unfold Tree.containsKey at hc
      show alistLookup k t.entries = none
      cases h : alistLookup k t.entries with
      | none => rfl
      | some v =>
        rw [h] at hc
        exact absurd rfl hc
  · rw [if_neg hk]
    by_cases hc : t.containsKey k0
    · rw [if_pos hc]
      exact alistLookup_deleteEntry_ne hk t.entries
    · rw [if_neg hc]

theorem sorted_pickStep {t : Tree} (hs : entriesSorted t.entries) (ct : Tree)
    (k : Str) : entriesSorted (Database.pickStep ct t k).entries := by
  unfold Database.pickStep
  cases ct.get k with
  | none => exact hs
  | some v => exact entriesSorted_insertEntry t.entries hs

theorem sorted_delStep {t : Tree} (hs : entriesSorted t.entries) (k : Str) :
    entriesSorted (Database.delStep t k).entries := by
  unfold Database.delStep
  by_cases hc : t.containsKey k
  · rw [if_pos hc]
    exact entriesSorted_deleteEntry t.entries hs
  · rw [if_neg hc]
    exact hs

theorem sorted_foldl_pickStep (ct : Tree) :
    ∀ (ks : List Str) (t : Tree), entriesSorted t.entries →
      entriesSorted ((ks.foldl (Database.pickStep ct) t).entries) := by
  intro ks
  induction ks with
  | nil => intro t hs; exact hs
  | cons k0 rest ih =>
    intro t hs
    rw [List.foldl_cons]
    exact ih _ (sorted_pickStep hs ct k0)

theorem get_foldl_delStep :
    ∀ (ks : List Str) (t : Tree), entriesSorted t.entries → ∀ k : Str,
      (ks.foldl Database.delStep t).get k
        = if k ∈ ks then none else t.get k := by
  intro ks
  induction ks with
  | nil =>
    intro t _ k
    rw [if_neg (List.not_mem_nil k)]
    rfl
  | cons k0 rest ih =>
    intro t hs k
    rw [List.foldl_cons, ih _ (sorted_delStep hs k0), get_delStep t hs]
    by_cases hmem : k ∈ rest
    · rw [if_pos hmem, if_pos (List.mem_cons_of_mem _ hmem)]
    · rw [if_neg hmem]
      by_cases hk : k = k0
      · subst hk
        rw [if_pos rfl, if_pos (List.mem_cons_self _ _)]
      · rw [if_neg hk, if_neg (fun h => by
          rcases List.mem_cons.mp h with h' | h'
          · exact hk h'
          · exact hmem h')]

/-- C7: for every resolvable commit id, `cherry_pick` produces a new commit
on the current branch whose stored tree `M` is the result of applying
`diff(parent_tree, commit_tree)` to the current tree `C`: each key in the
`added` or `modified` lists takes its value from the commit's tree `T`, each
key in the `removed` list is absent (deleted if it was present), and every
other key keeps its value from `C`. -/
theorem cherry_pick_spec (s : DbState) (commitId : Hash)
    (message : Option Str) (now : Int) (c : CommitObj) (T P C : Tree)
    (hload : Database.loadCommit s commitId = .ok c)
    (hT : Database.loadTree s c.tree_root = .ok T)
    (hP : Database.pickParentTree s c = .ok P)
    (hcur : Database.currentTree s = .ok C)
    (hCsorted : entriesSorted C.entries) :
    ∃ cNew M,
      (Database.cherryPick s commitId message now).2 = .ok cNew
      ∧ alistLookup cNew.tree_root
          (Database.cherryPick s commitId message now).1.trees = some M
      ∧ (∀ k, M.get k
          = if k ∈ (P.diff T).added ∨ k ∈ (P.diff T).modified then T.get k
            else if k ∈ (P.diff T).removed then none
            else C.get k)
      ∧ (Database.cherryPick s commitId message now).1.head = s.head
      ∧ alistLookup s.head
          (Database.cherryPick s commitId message now).1.branches
        = some cNew.id := by
  unfold Database.cherryPick
  simp only [hload, hT, hP, hcur]
  refine ⟨_, ((P.diff T).removed).foldl Database.delStep
      (((P.diff T).modified).foldl (Database.pickStep T)
        (((P.diff T).added).foldl (Database.pickStep T) C)),
    rfl, ?_, ?_, ?_, ?_⟩
  · rw [commitTree_snd_tree_root]
    exact commitTree_fst_trees s _ _ now
  · intro k
    have hsorted1 : entriesSorted
        ((((P.diff T).added).foldl (Database.pickStep T) C).entries) :=
      sorted_foldl_pickStep T _ C hCsorted
    have hsorted2 : entriesSorted
        ((((P.diff T).modified).foldl (Database.pickStep T)
          (((P.diff T).added).foldl (Database.pickStep T) C)).entries) :=
      sorted_foldl_pickStep T _ _ hsorted1
    rw [get_foldl_delStep _ _ hsorted2, get_foldl_pickStep, get_foldl_pickStep]
    by_cases hrem : k ∈ (P.diff T).removed
    · have hTnone : alistLookup k T.entries = none := diff_removed_sub hrem
      have hTnone' : (T.get k).isSome = false := by
        show (alistLookup k T.entries).isSome = false
        rw [hTnone]
        rfl
      have hnadd : k ∉ (P.diff T).added := fun h => by
        have := (diff_added_sub h).1
        rw [hTnone'] at this
        cases this
      have hnmod : k ∉ (P.diff T).modified := fun h => by
        have := diff_modified_sub h
        rw [hTnone'] at this
        cases this
      rw [if_pos hrem, if_neg (fun h => h.elim hnadd hnmod), if_pos hrem]
    · rw [if_neg hrem]
      by_cases hmod : k ∈ (P.diff T).modified
      · have hsome := diff_modified_sub hmod
        rw [if_pos ⟨hmod, hsome⟩, if_pos (Or.inr hmod)]
      · rw [if_neg (fun h => hmod h.1)]
        by_cases hadd : k ∈ (P.diff T).added
        · have hsome := (diff_added_sub hadd).1
          rw [if_pos ⟨hadd, hsome⟩, if_pos (Or.inl hadd)]
        · rw [if_neg (fun h => hadd h.1),
            if_neg (fun h => h.elim hadd hmod), if_neg hrem]
  · exact commitTree_fst_head s _ _ now
  · exact commitTree_fst_branches s _ _ now

/-- Database for the C7 witness: commit 20 on branch `cleanup` deleted key
`"a"` (its tree 71 lacks it, its parent commit 10 has tree 70 with it), and
the current branch `main` is at commit 30 whose tree is 70. -/
def cherryWitnessState : DbState :=
  { commits := [(10, CommitObj.mk 10 none 70 0 "one".data), (20, CommitObj.mk 20 (some 10) 71 0 "two".data), (30, CommitObj.mk 30 none 70 0 "m".data)]
    trees := [(70, Tree.mk 70 [("a".data, [1]), ("b".data, [2])]), (71, Tree.mk 71 [("b".data, [2])])]
    branches := [("main".data, 30), ("cleanup".data, 20)]
    head := "main".data
    wal := []
    nextTx := 1 }

/-- Witness for C7: cherry-picking the delete-commit 20 onto `main`. -/
theorem cherry_pick_spec_witness :
    Database.loadCommit cherryWitnessState 20
        = .ok (CommitObj.mk 20 (some 10) 71 0 "two".data)
    ∧ Database.loadTree cherryWitnessState 71
        = .ok (Tree.mk 71 [("b".data, [2])])
    ∧ Database.pickParentTree cherryWitnessState
        (CommitObj.mk 20 (some 10) 71 0 "two".data)
        = .ok (Tree.mk 70 [("a".data, [1]), ("b".data, [2])])
    ∧ Database.currentTree cherryWitnessState
        = .ok (Tree.mk 70 [("a".data, [1]), ("b".data, [2])])
    ∧ entriesSorted (Tree.mk 70 [("a".data, [1]), ("b".data, [2])]).entries
    ∧ ∃ cNew M,
        (Database.cherryPick cherryWitnessState 20 none 0).2 = .ok cNew
        ∧ alistLookup cNew.tree_root
            (Database.cherryPick cherryWitnessState 20 none 0).1.trees
          = some M
        ∧ (∀ k, M.get k
            = if k ∈ ((Tree.mk 70 [("a".data, [1]), ("b".data, [2])]).diff
                  (Tree.mk 71 [("b".data, [2])])).added
                ∨ k ∈ ((Tree.mk 70 [("a".data, [1]), ("b".data, [2])]).diff
                  (Tree.mk 71 [("b".data, [2])])).modified
              then (Tree.mk 71 [("b".data, [2])]).get k
              else if k ∈ ((Tree.mk 70 [("a".data, [1]), ("b".data, [2])]).diff
                  (Tree.mk 71 [("b".data, [2])])).removed
              then none
              else (Tree.mk 70 [("a".data, [1]), ("b".data, [2])]).get k)
        ∧ (Database.cherryPick cherryWitnessState 20 none 0).1.head
            = cherryWitnessState.head
        ∧ alistLookup cherryWitnessState.head
            (Database.cherryPick cherryWitnessState 20 none 0).1.branches
          = some cNew.id :=
  ⟨by decide, by decide, by decide, by decide, by decide,
    cherry_pick_spec cherryWitnessState 20 none 0
      (CommitObj.mk 20 (some 10) 71 0 "two".data)
      (Tree.mk 71 [("b".data, [2])])
      (Tree.mk 70 [("a".data, [1]), ("b".data, [2])])
      (Tree.mk 70 [("a".data, [1]), ("b".data, [2])])
      (by decide) (by decide) (by decide) (by decide) (by decide)⟩

/-- The state right after `Database::init` on a fresh directory: refs =
`{branches: {}, head: "main"}`, no commits, no trees, empty WAL. -/
def freshInitState : DbState :=
  { commits := []
    trees := []
    branches := []
    head := "main".data
    wal := []
    nextTx := 1 }

/-- C4: the code contradicts the claimed pending-branch behaviour. On a
fresh database (current branch `main`, no commits) `create_branch("feat")`
succeeds but records nothing — the refs are saved unchanged — and the
subsequent `checkout("feat")` fails with `BranchNotFound` instead of
rebinding `head`, leaving the state unchanged. The spec (and the source's
own comments "branch will be created on first commit" in `create_branch` and
"Allow checkout even if branch has no commits yet" in `checkout`) promise
that the name becomes a checkout-able pending branch. -/
theorem create_branch_then_checkout_fails :
    (Database.createBranch freshInitState "feat".data).2 = .ok ()
    ∧ (Database.createBranch freshInitState "feat".data).1 = freshInitState
    ∧ (Database.checkout (Database.createBranch freshInitState "feat".data).1
        "feat".data).2 = .error (.BranchNotFound "feat".data)
    ∧ (Database.checkout (Database.createBranch freshInitState "feat".data).1
        "feat".data).1 = freshInitState := by
  refine ⟨?_, ?_, ?_, ?_⟩ <;> decide

/-! ## Compaction (`src/compaction.rs`, `Database::compact`) -/

/-- `CompactionPolicy` (`src/compaction.rs`): `0` / `None` mean unlimited. -/
structure CompactionPolicy where
  max_versions : Nat
  max_age_days : Option Nat
deriving DecidableEq, Repr

/-- `CompactionResult`. `bytes_reclaimed` sums on-disk file sizes, which are
not modelled (kept 0); the source never increments `blocks_removed`. -/
structure CompactionResult where
  commits_removed : Nat
  trees_removed : Nat
  blocks_removed : Nat
  bytes_reclaimed : Nat
deriving DecidableEq, Repr

/-- `chrono`'s `signed_duration_since(..).num_days()`: whole days of
`now - ts` with timestamps in seconds, truncating toward zero. -/
def ageDays (now ts : Int) : Int :=
  Int.div (now - ts) 86400

/-- `find_removable_commits`: over the newest-first `(id, timestamp)` list,
a commit at index `i` is removable if `max_versions > 0 ∧ i ≥ max_versions`
or its age in whole days exceeds `max_age_days`; removable ids are returned
in list order. -/
def findRemovableCommits (commits : List (Hash × Int))
    (policy : CompactionPolicy) (now : Int) : List Hash :=
  (commits.enum.filter (fun p =>
    decide (policy.max_versions > 0 ∧ p.1 ≥ policy.max_versions)
    || (match policy.max_age_days with
        | some d => decide (ageDays now p.2.2 > (d : Int))
        | none => false))).map (fun p => p.2.1)

/-- The `while let Some(commit)` walk of `Database::log`, following parent
links and propagating `CommitNotFound`. The Rust loop has no cycle guard;
`fuel` bounds the walk (for any fuel exceeding the chain length the model
equals the loop, and exhaustion — reported as `Corruption` — corresponds to
a walk the Rust loop would not finish). -/
def walkChain (s : DbState) : Nat → Option Hash → List CommitObj →
    Except DbErr (List CommitObj)
  | _, none, acc => .ok acc
  | 0, some _, _ => .error (.Corruption "fuel".data)
  | fuel + 1, some id, acc =>
    match Database.loadCommit s id with
    | .error e => .error e
    | .ok c => walkChain s fuel c.parent (acc ++ [c])

/-- `Database::log`: the newest-first chain from the head commit; an empty
database yields an empty log, other head errors propagate. -/
def Database.log (s : DbState) (fuel : Nat) :
    Except DbErr (List CommitObj) :=
  match Database.headCommit s with
  | .ok c => walkChain s fuel c.parent [c]
  | .error .EmptyDatabase => .ok []
  | .error e => .error e

/-- The visited-set ancestor walk in `Database::compact`: stop on a repeated
id or a failed load (the id is still recorded first), else follow the
parent. `fuel` as in `walkChain`; the Rust loop always terminates because
the visited set grows. -/
def walkAncestors (s : DbState) : Nat → Option Hash → List Hash → List Hash
  | _, none, visited => visited
  | 0, some _, visited => visited
  | fuel + 1, some id, visited =>
    if id ∈ visited then visited
    else
      match Database.loadCommit s id with
      | .ok c => walkAncestors s fuel c.parent (id :: visited)
      | .error _ => id :: visited

/-- `Database::compact`, clause by clause: plan removable ids from the
current branch's log; collect the kept ids (`log` minus `removable`); union
the ancestor walks of every branch head into `all_reachable_commits`;
collect reachable tree roots, skipping ids that are removable and not kept;
delete each removable commit file unless it is both reachable and kept; if
anything was removed, rewrite the oldest kept commit whose stored parent no
longer resolves with `parent = None`; finally delete every tree file whose
digest was not collected. -/
def Database.compact (s : DbState) (policy : CompactionPolicy) (now : Int)
    (fuel : Nat) : Except DbErr (DbState × CompactionResult) :=
  match Database.log s fuel with
  | .error e => .error e
  | .ok log =>
    let commitsWithTs := log.map (fun c => (c.id, c.timestamp))
    let removable := findRemovableCommits commitsWithTs policy now
    if removable.isEmpty then .ok (s, ⟨0, 0, 0, 0⟩)
    else
      let keepCommitIds := (log.map (fun c => c.id)).filter
        (fun id => !removable.contains id)
      let allReachable := s.branches.foldl
        (fun acc p => walkAncestors s fuel (some p.2) acc) []
      let reachableTrees := allReachable.foldl
        (fun acc cid =>
          if removable.contains cid && !keepCommitIds.contains cid then acc
          else
            match alistLookup cid s.commits with
            | some c => if c.tree_root ∈ acc then acc else c.tree_root :: acc
            | none => acc)
        []
      let removeStep := fun (st : List (Hash × CommitObj) × Nat) (cid : Hash) =>
        if allReachable.contains cid && keepCommitIds.contains cid then st
        else if (alistLookup cid st.1).isSome then
          (st.1.filter (fun p => p.1 ≠ cid), st.2 + 1)
        else st
      let afterRemove := removable.foldl removeStep (s.commits, 0)
      let s1 := { s with commits := afterRemove.1 }
      let s2 :=
        if afterRemove.2 > 0 then
          let keptCommits := log.filter (fun c => !removable.contains c.id)
          match keptCommits.getLast? with
          | some oldestKept =>
            match oldestKept.parent with
            | some parentId =>
              if (alistLookup parentId s1.commits).isNone then
                let fixed := { oldestKept with parent := none }
                { s1 with commits := alistUpsert fixed.id fixed s1.commits }
              else s1
            | none => s1
          | none => s1
        else s1
      let treesKept := s2.trees.filter (fun p => reachableTrees.contains p.1)
      let treesRemoved := s2.trees.length - treesKept.length
      let s3 := { s2 with trees := treesKept }
      .ok (s3, ⟨afterRemove.2, treesRemoved, 0, 0⟩)

/-- Database for the C1 failing input: current branch `main` is the chain
commit 3 → 2 → 1 (trees 73, 72, 71), and branch `b`'s head is commit 1. -/
def compactWitnessState : DbState :=
  { commits := [(1, CommitObj.mk 1 none 71 0 "one".data), (2, CommitObj.mk 2 (some 1) 72 0 "two".data), (3, CommitObj.mk 3 (some 2) 73 0 "three".data)]
    trees := [(71, Tree.mk 71 [("k".data, [0])]), (72, Tree.mk 72 [("k".data, [1])]), (73, Tree.mk 73 [("k".data, [2])])]
    branches := [("main".data, 3), ("b".data, 1)]
    head := "main".data
    wal := []
    nextTx := 1 }

/-- C1 is violated by the code: compacting `main` with `max_versions = 2`
deletes commit 1 even though it is branch `b`'s head. The sweep's guard
`all_reachable_commits.contains(cid) && keep_commit_ids.contains(cid)` can
never hold for a removable id because `keep_commit_ids` excludes every
removable id by construction, so — contrary to the source's own comment
"Only remove if not reachable from other branches" — reachability from other
branches is never consulted. Afterwards branch `b` still maps to commit 1,
which no longer resolves; `log()` on `b` fails with `CommitNotFound`; and
commit 1's tree (71) has been deleted from disk. -/
theorem compact_removes_reachable_commit :
    (Database.compact compactWitnessState ⟨2, none⟩ 0 10).map
        (fun p => alistLookup "b".data p.1.branches) = .ok (some 1)
    ∧ (Database.compact compactWitnessState ⟨2, none⟩ 0 10).map
        (fun p => Database.loadCommit p.1 1)
      = .ok (.error (.CommitNotFound 1))
    ∧ (Database.compact compactWitnessState ⟨2, none⟩ 0 10).map
        (fun p => Database.log { p.1 with head := "b".data } 10)
      = .ok (.error (.CommitNotFound 1))
    ∧ (Database.compact compactWitnessState ⟨2, none⟩ 0 10).map
        (fun p => alistLookup 71 p.1.trees) = .ok none
    ∧ (Database.compact compactWitnessState ⟨2, none⟩ 0 10).map
        (fun p => p.2.commits_removed) = .ok 1 := by
  refine ⟨?_, ?_, ?_, ?_, ?_⟩ <;> decide

end Iceberg
